import Mathlib

/-!
# go_todolist: the task store of `main.go`

A shallow embedding of the domain logic of `src/main.go` (the `Task` record, the
`TodoList` store and its methods) together with the properties of the store
operations.

Modelling conventions.

* A Go slice `[]Task` is a `List Task`; a method with a pointer receiver that
  mutates `tl.Tasks` is a function returning the new store, paired with the
  returned `error` (`none` is `nil`) when the method returns one.
* Go `int` is the signed 64 bit integer of the usual targets: an ID is an `Int`
  and the one arithmetic operation on IDs, `maxID + 1`, wraps (`wrapInt`).
* `time.Time` is an instant, counted in nanoseconds from the zero time
  (`time.Time{}`), together with its `Location`. `Before`, `After` and `IsZero`
  look at the instant only, as in Go.
* `AddDate(0, 0, 1)` adds one calendar day in the location of the time, so the
  instant moves by 24 hours, or by 23 or 25 hours across a change of daylight
  saving time. The time zone data is not part of the program: `AddDate(0, 0, 1)`
  is the field `addDay` of a `Calendar`, a parameter of every operation that
  calls it, of which only one fact is assumed, that the result is not before
  the time it is computed from.
* `time.Now()` is a clock: a function giving the reading of the k-th call made
  by the operation, so that no two calls are assumed to return the same instant.
* The interactive `YesOrNo` prompt is the Boolean answer it returns.
* `for i, task := range tl.Tasks` evaluates the slice once: the loop visits the
  original elements with their index, while assignments go to the current
  `tl.Tasks`. A loop only ever writes index `i` in iteration `i` and appends
  behind the original length, so `task` is the original element in every
  iteration.
-/

namespace GoTodo

/-- A `time.Time`: the instant in nanoseconds from the zero time, and the
`Location` the time is read in (numbered, 0 being UTC). -/
structure Time where
  instant : Int
  location : Nat
deriving DecidableEq, Repr

/-- The zero value `time.Time{}`. -/
def Time.zero : Time := { instant := 0, location := 0 }

/-- The method `Before`: the instant of `a` is before the instant of `b`. -/
def Time.Before (a b : Time) : Prop := a.instant < b.instant

instance (a b : Time) : Decidable (a.Before b) := by
  unfold Time.Before
  exact inferInstance

/-- The method `After`: the instant of `a` is after the instant of `b`. -/
def Time.After (a b : Time) : Prop := b.instant < a.instant

instance (a b : Time) : Decidable (a.After b) := by
  unfold Time.After
  exact inferInstance

/-- The method `IsZero`: the time is the zero time instant. -/
def Time.IsZero (t : Time) : Prop := t.instant = 0

instance (t : Time) : Decidable t.IsZero := by
  unfold Time.IsZero
  exact inferInstance

/-- The calendar of the machine: `addDay t` is `t.AddDate(0, 0, 1)`, one
calendar day later in the location of `t`. It is never before `t`. -/
structure Calendar where
  addDay : Time → Time
  not_before : ∀ t, ¬ (addDay t).Before t

/-- Readings of `time.Now()`: `clock k` is what the k-th call returns. -/
abbrev Clock := Nat → Time

/-- The nanoseconds of 24 hours. -/
def day : Int := 86400000000000

/-- Largest value of a Go `int` (64 bit). -/
def maxInt : Int := 9223372036854775807

/-- Signed 64 bit wrap-around of an integer result. -/
def wrapInt (x : Int) : Int :=
  (x + 9223372036854775808) % 18446744073709551616 - 9223372036854775808

/-- The `Task` struct. -/
structure Task where
  ID : Int
  Description : String
  CreatedAt : Time
  DueDate : Time
  CompletedAt : Time
  Completed : Bool
  IsDaily : Bool
deriving DecidableEq, Repr

/-- The `TodoList` struct. -/
structure TodoList where
  Tasks : List Task
deriving DecidableEq, Repr

/-- Assignment to the element at index `i`: `tl.Tasks[i] = f tl.Tasks[i]`. -/
def updateAt (f : Task → Task) : Nat → List Task → List Task
  | _, [] => []
  | 0, t :: ts => f t :: ts
  | i + 1, t :: ts => t :: updateAt f i ts

/-- The loop of `getNextID`: the running `maxID` over the tasks. -/
def maxIDFrom : Int → List Task → Int
  | maxID, [] => maxID
  | maxID, task :: rest =>
    if task.ID > maxID then maxIDFrom task.ID rest else maxIDFrom maxID rest

/-- The method `getNextID`: `maxID + 1`, in 64 bit arithmetic. -/
def getNextID (tl : TodoList) : Int :=
  wrapInt (maxIDFrom 0 tl.Tasks + 1)

/-- The method `AddTask`; `clock 0` is the reading stored in `CreatedAt`. -/
def AddTask (clock : Clock) (tl : TodoList) (description : String) (dueDate : Time)
    (isDaily : Bool) : TodoList :=
  let task : Task :=
    { ID := getNextID tl
      Description := description
      CreatedAt := clock 0
      DueDate := dueDate
      CompletedAt := Time.zero
      Completed := false
      IsDaily := isDaily }
  { Tasks := tl.Tasks ++ [task] }

/-- The method `AddDailyTask`: the argument `time.Now().AddDate(0, 0, 1)` is
evaluated first, then `AddTask` reads the clock again. -/
def AddDailyTask (cal : Calendar) (clock : Clock) (tl : TodoList) (description : String) :
    TodoList :=
  AddTask (fun k => clock (k + 1)) tl description (cal.addDay (clock 0)) true

/-- The loop of `RemoveDailyTask` from index `i` on, `rest` being the elements
not yet visited. -/
def removeDailyLoop (tl : TodoList) (id : Int) : Nat → List Task → TodoList × Option String
  | _, [] => (tl, some "daily task not found")
  | i, task :: rest =>
    if task.ID = id ∧ task.IsDaily = true then
      ({ Tasks := tl.Tasks.take i ++ tl.Tasks.drop (i + 1) }, none)
    else removeDailyLoop tl id (i + 1) rest

/-- The method `RemoveDailyTask`. -/
def RemoveDailyTask (tl : TodoList) (id : Int) : TodoList × Option String :=
  removeDailyLoop tl id 0 tl.Tasks

/-- The loop of `CompleteTask` from index `i` on. -/
def completeLoop (clock : Clock) (tl : TodoList) (id : Int) :
    Nat → List Task → TodoList × Option String
  | _, [] => (tl, some "task not found or already completed")
  | i, task :: rest =>
    if task.ID = id ∧ task.Completed = false then
      let tasks1 := updateAt (fun t => { t with Completed := true }) i tl.Tasks
      let tasks2 := updateAt (fun t => { t with CompletedAt := clock 0 }) i tasks1
      ({ Tasks := tasks2 }, none)
    else completeLoop clock tl id (i + 1) rest

/-- The method `CompleteTask`. -/
def CompleteTask (clock : Clock) (tl : TodoList) (id : Int) : TodoList × Option String :=
  completeLoop clock tl id 0 tl.Tasks

/-- The loop of `CompleteAllTask`: `i` is the index, `k` the number of clock
readings made so far, `cur` the current `tl.Tasks`. -/
def completeAllLoop (clock : Clock) : Nat → Nat → List Task → List Task → List Task
  | _, _, [], cur => cur
  | i, k, task :: rest, cur =>
    if task.Completed = false then
      let cur1 := updateAt (fun t => { t with Completed := true }) i cur
      let cur2 := updateAt (fun t => { t with CompletedAt := clock k }) i cur1
      completeAllLoop clock (i + 1) (k + 1) rest cur2
    else completeAllLoop clock (i + 1) k rest cur

/-- The method `CompleteAllTask`; `ok` is the answer of the `YesOrNo` prompt. -/
def CompleteAllTask (ok : Bool) (clock : Clock) (tl : TodoList) : TodoList :=
  if ok then { Tasks := completeAllLoop clock 0 0 tl.Tasks tl.Tasks } else tl

/-- The method `GetIncompleteTasksBeforeDate`. -/
def GetIncompleteTasksBeforeDate (tl : TodoList) (date : Time) : List Task :=
  tl.Tasks.filter (fun task => !task.Completed && !decide (task.DueDate.After date))

/-- The loop of `RefreshDailyTasks`: `today` is the reading taken before the
loop, `i` the index, `k` the number of clock readings made so far, `cur` the
current `tl.Tasks`. -/
def refreshLoop (cal : Calendar) (clock : Clock) (today : Time) :
    Nat → Nat → List Task → List Task → List Task
  | _, _, [], cur => cur
  | i, k, task :: rest, cur =>
    if task.IsDaily = true ∧ task.Completed = false ∧ task.DueDate.Before today then
      let newTask : Task :=
        { ID := getNextID { Tasks := cur }
          Description := task.Description
          CreatedAt := clock k
          DueDate := cal.addDay today
          CompletedAt := Time.zero
          Completed := false
          IsDaily := true }
      let cur1 := cur ++ [newTask]
      let cur2 := updateAt (fun t => { t with Completed := true }) i cur1
      let cur3 := updateAt (fun t => { t with CompletedAt := today }) i cur2
      refreshLoop cal clock today (i + 1) (k + 1) rest cur3
    else if task.IsDaily = true then
      if task.DueDate.Before today then
        refreshLoop cal clock today (i + 1) k rest
          (updateAt (fun t => { t with DueDate := cal.addDay today }) i cur)
      else refreshLoop cal clock today (i + 1) k rest cur
    else refreshLoop cal clock today (i + 1) k rest cur

/-- The method `RefreshDailyTasks`; `today` is `clock 0`. -/
def RefreshDailyTasks (cal : Calendar) (clock : Clock) (tl : TodoList) : TodoList :=
  { Tasks := refreshLoop cal clock (clock 0) 0 1 tl.Tasks tl.Tasks }

/-- The loop of `PushIncompleteTasks`: the condition
`!task.Completed && task.DueDate.Before(time.Now()) && !task.IsDaily` reads the
clock exactly when the task is incomplete. -/
def pushLoop (cal : Calendar) (clock : Clock) :
    Nat → Nat → List Task → List Task → List Task
  | _, _, [], cur => cur
  | i, k, task :: rest, cur =>
    if task.Completed = false then
      if task.DueDate.Before (clock k) ∧ task.IsDaily = false then
        pushLoop cal clock (i + 1) (k + 1) rest
          (updateAt (fun t => { t with DueDate := cal.addDay t.DueDate }) i cur)
      else pushLoop cal clock (i + 1) (k + 1) rest cur
    else pushLoop cal clock (i + 1) k rest cur

/-- The method `PushIncompleteTasks`. -/
def PushIncompleteTasks (cal : Calendar) (clock : Clock) (tl : TodoList) : TodoList :=
  { Tasks := pushLoop cal clock 0 0 tl.Tasks tl.Tasks }

/-- The store a missing file loads as: `&TodoList{}`. -/
def emptyStore : TodoList := { Tasks := [] }

/-- One store operation, with the clock readings it observes. -/
inductive Op where
  | addTask (clock : Clock) (description : String) (dueDate : Time) (isDaily : Bool)
  | addDailyTask (clock : Clock) (description : String)
  | removeDailyTask (id : Int)
  | completeTask (clock : Clock) (id : Int)
  | completeAllTask (ok : Bool) (clock : Clock)
  | refreshDailyTasks (clock : Clock)
  | pushIncompleteTasks (clock : Clock)

/-- The store after one operation. -/
def Op.apply (cal : Calendar) : Op → TodoList → TodoList
  | .addTask clock description dueDate isDaily, tl => AddTask clock tl description dueDate isDaily
  | .addDailyTask clock description, tl => AddDailyTask cal clock tl description
  | .removeDailyTask id, tl => (RemoveDailyTask tl id).1
  | .completeTask clock id, tl => (CompleteTask clock tl id).1
  | .completeAllTask ok clock, tl => CompleteAllTask ok clock tl
  | .refreshDailyTasks clock, tl => RefreshDailyTasks cal clock tl
  | .pushIncompleteTasks clock, tl => PushIncompleteTasks cal clock tl

/-- The store after a sequence of operations, applied left to right. -/
def run (cal : Calendar) (tl : TodoList) : List Op → TodoList
  | [] => tl
  | op :: ops => run cal (op.apply cal tl) ops

/-- The tasks an operation creates: those behind the old length. -/
def Op.created (op : Op) (cal : Calendar) (tl : TodoList) : List Task :=
  (op.apply cal tl).Tasks.drop tl.Tasks.length

/-- The IDs of a store, in store order. -/
def ids (tl : TodoList) : List Int := tl.Tasks.map (fun t => t.ID)

/-! ## Reference descriptions

The definitions below are not translations of source functions. They describe
results task by task, in the words of the specification, and the loops above
are proved equal to them (`completeAllLoop_eq`, `pushLoop_eq`,
`refreshLoop_eq`). -/

/-- Reference for the loop of `CompleteAllTask`, task by task: `k` counts the
clock readings made so far. -/
def completeAllMap (clock : Clock) : Nat → List Task → List Task
  | _, [] => []
  | k, t :: rest =>
    if t.Completed = false then
      { t with Completed := true, CompletedAt := clock k } :: completeAllMap clock (k + 1) rest
    else t :: completeAllMap clock k rest

/-- Reference for the loop of `PushIncompleteTasks`, task by task: `k` counts
the clock readings made so far. -/
def pushMap (cal : Calendar) (clock : Clock) : Nat → List Task → List Task
  | _, [] => []
  | k, t :: rest =>
    if t.Completed = false then
      (if t.DueDate.Before (clock k) ∧ t.IsDaily = false then
          { t with DueDate := cal.addDay t.DueDate }
        else t) :: pushMap cal clock (k + 1) rest
    else t :: pushMap cal clock k rest

/-- The rollover case of `RefreshDailyTasks`: a daily task that is incomplete
and due before `now`. -/
def rollsOver (now : Time) (t : Task) : Prop :=
  t.IsDaily = true ∧ t.Completed = false ∧ t.DueDate.Before now

instance (now : Time) : DecidablePred (rollsOver now) := fun t => by
  unfold rollsOver
  exact inferInstance

/-- Reference for what `RefreshDailyTasks` at time `now` makes of a task of the
old store, in the words of the specification: a daily, incomplete task due
before `now` becomes completed at `now`; a daily, completed task due before
`now` is due one calendar day after `now` (`now.AddDate(0, 0, 1)`); every other
task is unchanged. -/
def refreshOld (cal : Calendar) (now : Time) (t : Task) : Task :=
  if t.IsDaily = true ∧ t.Completed = false ∧ t.DueDate.Before now then
    { t with Completed := true, CompletedAt := now }
  else if t.IsDaily = true ∧ t.Completed = true ∧ t.DueDate.Before now then
    { t with DueDate := cal.addDay now }
  else t

/-- Reference for the tasks the loop of `RefreshDailyTasks` appends while it
visits the remaining old tasks, `m` being the running maximum of `getNextID`
over the current store and `k` the number of clock readings made so far; the
new ID is `m + 1` in 64 bit arithmetic, as in `getNextID`. -/
def refreshNew (cal : Calendar) (clock : Clock) (today : Time) :
    Int → Nat → List Task → List Task
  | _, _, [] => []
  | m, k, t :: rest =>
    if rollsOver today t then
      { ID := wrapInt (m + 1), Description := t.Description, CreatedAt := clock k,
        DueDate := cal.addDay today, CompletedAt := Time.zero, Completed := false, IsDaily := true } ::
        refreshNew cal clock today (if wrapInt (m + 1) > m then wrapInt (m + 1) else m) (k + 1) rest
    else refreshNew cal clock today m k rest

/-- The largest ID of a non-empty list of tasks (0 for the empty list). -/
def largestID : List Task → Int
  | [] => 0
  | t :: rest => rest.foldl (fun m u => max m u.ID) t.ID

/-- The rollover task number `j` (counted from 0) made for the old task `t`
when IDs are handed out upwards from `m + 1`: same description, daily,
incomplete, due one calendar day after `clock 0`. Its `CreatedAt`, on which the
specification of the IDs and due dates is silent, is the clock reading made
for it. -/
def rolloverTask (cal : Calendar) (m : Int) (clock : Clock) (j : Nat) (t : Task) : Task :=
  { ID := m + 1 + j, Description := t.Description, CreatedAt := clock (j + 1),
    DueDate := cal.addDay (clock 0), CompletedAt := Time.zero, Completed := false, IsDaily := true }

/-- The reference result of `RefreshDailyTasks` at time `clock 0`: the old tasks
in order, each as `refreshOld` leaves it, followed by one rollover task for each
daily, incomplete task due before now, in store order, with the IDs `m + 1`,
`m + 2`, and so on. -/
def refreshRef (cal : Calendar) (m : Int) (clock : Clock) (ts : List Task) : List Task :=
  ts.map (refreshOld cal (clock 0)) ++
    ((ts.filter (fun t => decide (rollsOver (clock 0) t))).enum.map
      (fun jt => rolloverTask cal m clock jt.1 jt.2))

/-- The one-off tasks `PushIncompleteTasks` moves: not daily, incomplete and due
before `now`. -/
def pushable (now : Time) (t : Task) : Prop :=
  t.IsDaily = false ∧ t.Completed = false ∧ t.DueDate.Before now

instance (now : Time) : DecidablePred (pushable now) := fun t => by
  unfold pushable
  exact inferInstance

/-- The data-model invariant of one task: `CompletedAt` is set (`IsZero` does
not hold of it) exactly when `Completed` is true. -/
def completedAtSet (t : Task) : Prop := ¬ t.CompletedAt.IsZero ↔ t.Completed = true

/-- Reference for what `PushIncompleteTasks` at time `now` makes of a task, in
the words of the specification: the due date of a task that is not daily,
incomplete and due before `now` advances by one calendar day from its own old
value (`AddDate(0, 0, 1)` of the old due date). -/
def pushStep (cal : Calendar) (now : Time) (t : Task) : Task :=
  if pushable now t then { t with DueDate := cal.addDay t.DueDate } else t

/-- Every reading of the clock an operation makes is a set (non-zero) time. -/
def Op.clockNonzero : Op → Prop
  | .addTask clock _ _ _ => ∀ k, ¬ (clock k).IsZero
  | .addDailyTask clock _ => ∀ k, ¬ (clock k).IsZero
  | .removeDailyTask _ => True
  | .completeTask clock _ => ∀ k, ¬ (clock k).IsZero
  | .completeAllTask _ clock => ∀ k, ¬ (clock k).IsZero
  | .refreshDailyTasks clock => ∀ k, ¬ (clock k).IsZero
  | .pushIncompleteTasks clock => ∀ k, ¬ (clock k).IsZero

/-- A clock that always shows the same instant. -/
def constClock (now : Time) : Clock := fun _ => now

/-- The calendar in which every day has 24 hours (as in UTC). -/
def utcCalendar : Calendar :=
  { addDay := fun t => { t with instant := t.instant + day }
    not_before := by
      intro t
      simp [Time.Before, day] }

/-- A calendar with a change of daylight saving time: in location 1 the day
that starts at `9 * day` has 23 hours, so a time of that day moves by 23 hours;
every other time moves by 24 hours. -/
def dstCalendar : Calendar :=
  { addDay := fun t =>
      if t.location = 1 ∧ 9 * day ≤ t.instant ∧ t.instant < 9 * day + 82800000000000 then
        { t with instant := t.instant + 82800000000000 }
      else { t with instant := t.instant + day }
    not_before := by
      intro t
      unfold Time.Before
      dsimp only
      split <;> simp [day] }

/-- The time at instant `n` in UTC. -/
def utc (n : Int) : Time := { instant := n, location := 0 }

/-- The time at instant `n` in location 1. -/
def local1 (n : Int) : Time := { instant := n, location := 1 }

/-- Example time: the start of day 10, in UTC. -/
def exNow : Time := utc (10 * day)

/-- Example time in location 1: one hour into the 23 hour day of `dstCalendar`. -/
def exDstNow : Time := local1 (9 * day + 3600000000000)

/-- Example time in location 1: half an hour into the day after the 23 hour day
of `dstCalendar`. -/
def exAfterDst : Time := local1 (10 * day + 1800000000000)

/-- Example store: one daily, incomplete task that was due a day before
`exNow`. -/
def exMissedDaily : TodoList :=
  { Tasks := [{ ID := 2, Description := "stretch", CreatedAt := utc (8 * day), DueDate := utc (9 * day),
                CompletedAt := Time.zero, Completed := false, IsDaily := true }] }

/-- Room for `k` more IDs: no ID handed out by `k` successive allocations
exceeds the largest `int`, that is, `k` and every ID of the store plus `k` are
at most `maxInt`. -/
def idRoom (tl : TodoList) (k : Nat) : Prop :=
  (k : Int) ≤ maxInt ∧ ∀ t ∈ tl.Tasks, t.ID + k ≤ maxInt

instance (tl : TodoList) (k : Nat) : Decidable (idRoom tl k) := by
  unfold idRoom
  exact inferInstance

/-- Example store: two daily, incomplete tasks that were due a day before
`exNow`, the first with the largest ID an `int` can hold. -/
def exLargestID : TodoList :=
  { Tasks := [{ ID := 9223372036854775807, Description := "stretch", CreatedAt := utc (8 * day),
                DueDate := utc (9 * day), CompletedAt := Time.zero, Completed := false, IsDaily := true },
              { ID := 1, Description := "read", CreatedAt := utc (8 * day),
                DueDate := utc (9 * day), CompletedAt := Time.zero, Completed := false, IsDaily := true }] }

/-- Example store: one daily, incomplete task with a negative ID that was due a
day before `exNow`. -/
def exNegativeID : TodoList :=
  { Tasks := [{ ID := -5, Description := "stretch", CreatedAt := utc (8 * day), DueDate := utc (9 * day),
                CompletedAt := Time.zero, Completed := false, IsDaily := true }] }

/-- Example store: tasks 1 and 2, task 2 being daily, incomplete and due a day
before `exNow`. -/
def exTwoTasks : TodoList :=
  { Tasks := [{ ID := 1, Description := "buy milk", CreatedAt := utc (8 * day), DueDate := utc (11 * day),
                CompletedAt := Time.zero, Completed := false, IsDaily := false },
              { ID := 2, Description := "stretch", CreatedAt := utc (8 * day), DueDate := utc (9 * day),
                CompletedAt := Time.zero, Completed := false, IsDaily := true }] }

/-- Example store in location 1: two one-off incomplete tasks, the first due in
the 23 hour day of `dstCalendar`, the second two days before that. -/
def exDstTasks : TodoList :=
  { Tasks := [{ ID := 1, Description := "buy milk", CreatedAt := local1 (8 * day),
                DueDate := local1 (9 * day + 3600000000000), CompletedAt := Time.zero,
                Completed := false, IsDaily := false },
              { ID := 2, Description := "call home", CreatedAt := local1 (6 * day),
                DueDate := local1 (7 * day), CompletedAt := Time.zero,
                Completed := false, IsDaily := false }] }

/-- Example run: add a daily task, remove it, add another task. -/
def exReuseOps : List Op :=
  [Op.addDailyTask (constClock exNow) "stretch", Op.removeDailyTask 1,
    Op.addTask (constClock exNow) "buy milk" (utc (11 * day)) false]

/-- The property "IDs are never reused" of a run from the empty store: the ID of
a task created by the operation number `j` differs from the ID of every task
that was in the store after `i` operations, for every `i ≤ j` (whether or not
the task has been removed since). -/
def neverReused (cal : Calendar) (ops : List Op) : Prop :=
  ∀ i j : Nat, i ≤ j → ∀ op, ops[j]? = some op →
    ∀ t ∈ (run cal emptyStore (ops.take i)).Tasks,
      ∀ u ∈ op.created cal (run cal emptyStore (ops.take j)), u.ID ≠ t.ID
/-! ## Auxiliary facts -/

theorem wrapInt_eq (x : Int) (h1 : -9223372036854775808 ≤ x) (h2 : x ≤ 9223372036854775807) :
    wrapInt x = x := by
  unfold wrapInt
  omega

theorem updateAt_append_cons (f : Task → Task) (pre : List Task) (t : Task) (rest : List Task) :
    updateAt f pre.length (pre ++ t :: rest) = pre ++ f t :: rest := by
  induction pre with
  | nil => simp [updateAt]
  | cons p pre ih => simp [updateAt, ih]

theorem take_drop_of_length (pre : List Task) (t : Task) (post : List Task) :
    (pre ++ t :: post).take pre.length ++ (pre ++ t :: post).drop (pre.length + 1) = pre ++ post := by
  induction pre with
  | nil => simp
  | cons p pre ih => simp

/-- Every list either has no element satisfying `p` or splits at the first one. -/
theorem first_split (p : Task → Prop) [DecidablePred p] (l : List Task) :
    (∀ u ∈ l, ¬ p u) ∨
      ∃ pre t post, l = pre ++ t :: post ∧ (∀ u ∈ pre, ¬ p u) ∧ p t := by
  induction l with
  | nil => left; simp
  | cons a l ih =>
    by_cases ha : p a
    · right
      exact ⟨[], a, l, by simp, by simp, ha⟩
    · rcases ih with h | ⟨pre, t, post, hl, hpre, ht⟩
      · left
        intro u hu
        rcases List.mem_cons.mp hu with rfl | hu
        · exact ha
        · exact h u hu
      · right
        refine ⟨a :: pre, t, post, by simp [hl], ?_, ht⟩
        intro u hu
        rcases List.mem_cons.mp hu with rfl | hu
        · exact ha
        · exact hpre u hu

theorem removeDailyLoop_none (tl : TodoList) (id : Int) (i : Nat) (rest : List Task)
    (h : ∀ u ∈ rest, ¬ (u.ID = id ∧ u.IsDaily = true)) :
    removeDailyLoop tl id i rest = (tl, some "daily task not found") := by
  induction rest generalizing i with
  | nil => rfl
  | cons a rest ih =>
    have ha := h a (by simp)
    simp only [removeDailyLoop, if_neg ha]
    exact ih (i + 1) (fun u hu => h u (by simp [hu]))

theorem removeDailyLoop_found (tl : TodoList) (id : Int) (pre mid : List Task) (t : Task)
    (post : List Task) (htl : tl.Tasks = pre ++ mid ++ t :: post)
    (hmid : ∀ u ∈ mid, ¬ (u.ID = id ∧ u.IsDaily = true)) (ht : t.ID = id ∧ t.IsDaily = true) :
    removeDailyLoop tl id pre.length (mid ++ t :: post) = ({ Tasks := pre ++ mid ++ post }, none) := by
  induction mid generalizing pre with
  | nil =>
    simp only [List.nil_append, removeDailyLoop, if_pos ht]
    simp only [List.append_nil] at htl
    rw [htl, take_drop_of_length]
    simp
  | cons a mid ih =>
    have ha := hmid a (by simp)
    simp only [List.cons_append, removeDailyLoop, if_neg ha]
    have := ih (pre ++ [a]) (by simp [htl]) (fun u hu => hmid u (by simp [hu]))
    simpa using this

theorem completeLoop_none (clock : Clock) (tl : TodoList) (id : Int) (i : Nat) (rest : List Task)
    (h : ∀ u ∈ rest, ¬ (u.ID = id ∧ u.Completed = false)) :
    completeLoop clock tl id i rest = (tl, some "task not found or already completed") := by
  induction rest generalizing i with
  | nil => rfl
  | cons a rest ih =>
    have ha := h a (by simp)
    simp only [completeLoop, if_neg ha]
    exact ih (i + 1) (fun u hu => h u (by simp [hu]))

theorem completeLoop_found (clock : Clock) (tl : TodoList) (id : Int) (pre mid : List Task)
    (t : Task) (post : List Task) (htl : tl.Tasks = pre ++ mid ++ t :: post)
    (hmid : ∀ u ∈ mid, ¬ (u.ID = id ∧ u.Completed = false))
    (ht : t.ID = id ∧ t.Completed = false) :
    completeLoop clock tl id pre.length (mid ++ t :: post) =
      ({ Tasks := pre ++ mid ++ { t with Completed := true, CompletedAt := clock 0 } :: post },
        none) := by
  induction mid generalizing pre with
  | nil =>
    simp only [List.nil_append, completeLoop, if_pos ht]
    simp only [List.append_nil] at htl
    rw [htl, updateAt_append_cons, updateAt_append_cons]
    simp
  | cons a mid ih =>
    have ha := hmid a (by simp)
    simp only [List.cons_append, completeLoop, if_neg ha]
    have := ih (pre ++ [a]) (by simp [htl]) (fun u hu => hmid u (by simp [hu]))
    simpa using this


theorem maxIDFrom_ge_init (a : Int) (l : List Task) : a ≤ maxIDFrom a l := by
  induction l generalizing a with
  | nil => simp [maxIDFrom]
  | cons t l ih =>
    simp only [maxIDFrom]
    split
    · have := ih t.ID
      omega
    · exact ih a

theorem maxIDFrom_ge_mem (a : Int) (l : List Task) (t : Task) (ht : t ∈ l) :
    t.ID ≤ maxIDFrom a l := by
  induction l generalizing a with
  | nil => simp at ht
  | cons u l ih =>
    simp only [maxIDFrom]
    rcases List.mem_cons.mp ht with rfl | ht
    · split
      · exact maxIDFrom_ge_init _ l
      · have := maxIDFrom_ge_init a l
        omega
    · split
      · exact ih _ ht
      · exact ih _ ht

theorem maxIDFrom_le (a b : Int) (l : List Task) (hab : a ≤ b) (h : ∀ t ∈ l, t.ID ≤ b) :
    maxIDFrom a l ≤ b := by
  induction l generalizing a with
  | nil => simpa [maxIDFrom] using hab
  | cons u l ih =>
    simp only [maxIDFrom]
    split
    · exact ih _ (h u (by simp)) (fun t ht => h t (by simp [ht]))
    · exact ih _ hab (fun t ht => h t (by simp [ht]))

theorem maxIDFrom_init_or_mem (a : Int) (l : List Task) :
    maxIDFrom a l = a ∨ ∃ t ∈ l, maxIDFrom a l = t.ID := by
  induction l generalizing a with
  | nil => left; rfl
  | cons u l ih =>
    simp only [maxIDFrom]
    split
    · rcases ih u.ID with h | ⟨t, ht, h⟩
      · exact Or.inr ⟨u, by simp, h⟩
      · exact Or.inr ⟨t, by simp [ht], h⟩
    · rcases ih a with h | ⟨t, ht, h⟩
      · exact Or.inl h
      · exact Or.inr ⟨t, by simp [ht], h⟩

/-- Without overflow the next ID is one more than the running maximum. -/
theorem getNextID_eq (tl : TodoList) (h : maxIDFrom 0 tl.Tasks < maxInt) :
    getNextID tl = maxIDFrom 0 tl.Tasks + 1 := by
  have h0 := maxIDFrom_ge_init 0 tl.Tasks
  unfold maxInt at h
  unfold getNextID
  exact wrapInt_eq _ (by omega) (by omega)


theorem completeAllLoop_eq (clock : Clock) (pre rest : List Task) (k : Nat) :
    completeAllLoop clock pre.length k rest (pre ++ rest) = pre ++ completeAllMap clock k rest := by
  induction rest generalizing pre k with
  | nil => simp [completeAllLoop, completeAllMap]
  | cons a rest ih =>
    simp only [completeAllLoop, completeAllMap]
    split
    · rw [updateAt_append_cons, updateAt_append_cons]
      have := ih (pre ++ [{ a with Completed := true, CompletedAt := clock k }]) (k + 1)
      simpa using this
    · have := ih (pre ++ [a]) k
      simpa using this

theorem pushLoop_eq (cal : Calendar) (clock : Clock) (pre rest : List Task) (k : Nat) :
    pushLoop cal clock pre.length k rest (pre ++ rest) = pre ++ pushMap cal clock k rest := by
  induction rest generalizing pre k with
  | nil => simp [pushLoop, pushMap]
  | cons a rest ih =>
    simp only [pushLoop, pushMap]
    split
    · split
      · rw [updateAt_append_cons]
        have := ih (pre ++ [{ a with DueDate := cal.addDay a.DueDate }]) (k + 1)
        simpa using this
      · have := ih (pre ++ [a]) (k + 1)
        simpa using this
    · have := ih (pre ++ [a]) k
      simpa using this

/-- The running maximum only looks at the IDs. -/
theorem maxIDFrom_congr (a : Int) (l l2 : List Task)
    (h : l.map (fun t => t.ID) = l2.map (fun t => t.ID)) : maxIDFrom a l = maxIDFrom a l2 := by
  induction l generalizing a l2 with
  | nil =>
    cases l2 with
    | nil => rfl
    | cons u l2 => simp at h
  | cons t l ih =>
    cases l2 with
    | nil => simp at h
    | cons u l2 =>
      simp only [List.map_cons, List.cons.injEq] at h
      simp only [maxIDFrom, h.1]
      split
      · exact ih _ _ h.2
      · exact ih _ _ h.2

theorem maxIDFrom_append (a : Int) (l l2 : List Task) :
    maxIDFrom a (l ++ l2) = maxIDFrom (maxIDFrom a l) l2 := by
  induction l generalizing a with
  | nil => rfl
  | cons t l ih =>
    simp only [List.cons_append, maxIDFrom]
    split
    · exact ih _
    · exact ih _

theorem refreshLoop_eq (cal : Calendar) (clock : Clock) (today : Time) (pre rest extra : List Task) (k : Nat) :
    refreshLoop cal clock today pre.length k rest (pre ++ rest ++ extra) =
      pre ++ rest.map (refreshOld cal today) ++ extra ++
        refreshNew cal clock today (maxIDFrom 0 (pre ++ rest ++ extra)) k rest := by
  induction rest generalizing pre extra k with
  | nil => simp [refreshLoop, refreshNew]
  | cons a rest ih =>
    simp only [refreshLoop, refreshNew, rollsOver, List.map_cons]
    by_cases h1 : a.IsDaily = true ∧ a.Completed = false ∧ a.DueDate.Before today
    · simp only [if_pos h1]
      have hn : ∃ n : Task, n =
          { ID := getNextID { Tasks := pre ++ a :: rest ++ extra },
            Description := a.Description, CreatedAt := clock k, DueDate := cal.addDay today,
            CompletedAt := Time.zero, Completed := false, IsDaily := true } := ⟨_, rfl⟩
      obtain ⟨n, hn⟩ := hn
      rw [← hn]
      have hn2 : n =
          { ID := wrapInt (maxIDFrom 0 (pre ++ a :: rest ++ extra) + 1),
            Description := a.Description, CreatedAt := clock k, DueDate := cal.addDay today,
            CompletedAt := Time.zero, Completed := false, IsDaily := true } := by
        rw [hn]
        rfl
      have hid : wrapInt (maxIDFrom 0 (pre ++ a :: rest ++ extra) + 1) = n.ID := by
        rw [hn]
        rfl
      rw [← hn2, hid]
      have e1 : pre ++ a :: rest ++ extra ++ [n] = pre ++ a :: (rest ++ (extra ++ [n])) := by
        simp
      rw [e1, updateAt_append_cons, updateAt_append_cons]
      dsimp only
      have := ih (pre ++ [{ a with Completed := true, CompletedAt := today }]) (extra ++ [n])
        (k + 1)
      have e3 : pre ++ [({ a with Completed := true, CompletedAt := today } : Task)] ++ rest ++
          (extra ++ [n]) =
          (pre ++ ({ a with Completed := true, CompletedAt := today } : Task) ::
            (rest ++ extra)) ++ [n] := by
        simp
      have e2 : maxIDFrom 0 (pre ++ [({ a with Completed := true, CompletedAt := today } : Task)] ++
          rest ++ (extra ++ [n])) =
          (if n.ID > maxIDFrom 0 (pre ++ a :: rest ++ extra) then n.ID
            else maxIDFrom 0 (pre ++ a :: rest ++ extra)) := by
        rw [e3, maxIDFrom_append]
        rw [maxIDFrom_congr 0 (pre ++ ({ a with Completed := true, CompletedAt := today } : Task) ::
              (rest ++ extra)) (pre ++ a :: rest ++ extra) (by simp)]
        simp only [maxIDFrom]
      rw [e2] at this
      simp only [List.length_append, List.length_singleton, List.append_assoc,
        List.singleton_append, List.cons_append, List.nil_append] at this ⊢
      rw [this]
      simp [refreshOld, h1]
    · simp only [if_neg h1]
      by_cases h2 : a.IsDaily = true
      · simp only [if_pos h2]
        by_cases h3 : a.DueDate.Before today
        · simp only [if_pos h3]
          have hc : a.Completed = true := by
            cases hcc : a.Completed with
            | true => rfl
            | false => exact absurd ⟨h2, hcc, h3⟩ h1
          have e1 : pre ++ a :: rest ++ extra = pre ++ a :: (rest ++ extra) := by simp
          rw [e1, updateAt_append_cons]
          have := ih (pre ++ [{ a with DueDate := cal.addDay today }]) extra k
          rw [maxIDFrom_congr 0 (pre ++ [({ a with DueDate := cal.addDay today } : Task)] ++
              rest ++ extra) (pre ++ a :: (rest ++ extra)) (by simp)] at this
          simp only [List.length_append, List.length_singleton, List.append_assoc,
            List.singleton_append, List.cons_append, List.nil_append] at this ⊢
          rw [this]
          simp [refreshOld, h1, h2, hc, h3]
        · simp only [if_neg h3]
          have := ih (pre ++ [a]) extra k
          simp only [List.length_append, List.length_singleton, List.append_assoc,
            List.singleton_append, List.cons_append, List.nil_append] at this ⊢
          rw [this]
          simp [refreshOld, h1, h3]
      · simp only [if_neg h2]
        have := ih (pre ++ [a]) extra k
        simp only [List.length_append, List.length_singleton, List.append_assoc,
          List.singleton_append, List.cons_append, List.nil_append] at this ⊢
        rw [this]
        simp [refreshOld, h1, h2]

/-- The store after `RefreshDailyTasks`: the old tasks as `refreshOld` leaves
them, followed by the appended tasks. -/
theorem refreshDailyTasks_eq (cal : Calendar) (clock : Clock) (tl : TodoList) :
    (RefreshDailyTasks cal clock tl).Tasks =
      tl.Tasks.map (refreshOld cal (clock 0)) ++
        refreshNew cal clock (clock 0) (maxIDFrom 0 tl.Tasks) 1 tl.Tasks := by
  have := refreshLoop_eq cal clock (clock 0) [] tl.Tasks [] 1
  simpa [RefreshDailyTasks] using this

theorem pushMap_const (cal : Calendar) (now : Time) (k : Nat) (l : List Task) :
    pushMap cal (constClock now) k l = l.map (pushStep cal now) := by
  induction l generalizing k with
  | nil => rfl
  | cons t l ih =>
    simp only [pushMap, List.map_cons, pushStep, pushable, constClock]
    by_cases hc : t.Completed = false
    · simp only [if_pos hc]
      have := ih (k + 1)
      simp only [constClock, pushStep, pushable] at this
      rw [this]
      by_cases hd : t.DueDate.Before now ∧ t.IsDaily = false
      · simp [hd, hc]
      · have : ¬ (t.IsDaily = false ∧ t.Completed = false ∧ t.DueDate.Before now) := by
          rintro ⟨h1, -, h3⟩
          exact hd ⟨h3, h1⟩
        simp [hd, this]
    · simp only [if_neg hc]
      have := ih k
      simp only [constClock, pushStep, pushable] at this
      rw [this]
      have : ¬ (t.IsDaily = false ∧ t.Completed = false ∧ t.DueDate.Before now) := by
        rintro ⟨-, h2, -⟩
        exact hc h2
      simp [this]

theorem pushIncompleteTasks_eq (cal : Calendar) (clock : Clock) (tl : TodoList) :
    (PushIncompleteTasks cal clock tl).Tasks = pushMap cal clock 0 tl.Tasks := by
  have := pushLoop_eq cal clock [] tl.Tasks 0
  simpa [PushIncompleteTasks] using this

theorem pushMap_forall₂ (cal : Calendar) (clock : Clock) (k : Nat) (l : List Task) :
    List.Forall₂ (fun t u => u = t ∨
        (t.IsDaily = false ∧ t.Completed = false ∧ u = { t with DueDate := cal.addDay t.DueDate }))
      l (pushMap cal clock k l) := by
  induction l generalizing k with
  | nil => exact List.Forall₂.nil
  | cons t l ih =>
    simp only [pushMap]
    by_cases hc : t.Completed = false
    · simp only [if_pos hc]
      refine List.Forall₂.cons ?_ (ih (k + 1))
      by_cases hd : t.DueDate.Before (clock k) ∧ t.IsDaily = false
      · rw [if_pos hd]
        exact Or.inr ⟨hd.2, hc, rfl⟩
      · rw [if_neg hd]
        exact Or.inl rfl
    · rw [if_neg hc]
      exact List.Forall₂.cons (Or.inl rfl) (ih k)

theorem completeAllTask_eq (clock : Clock) (tl : TodoList) :
    (CompleteAllTask true clock tl).Tasks = completeAllMap clock 0 tl.Tasks := by
  have := completeAllLoop_eq clock [] tl.Tasks 0
  simpa [CompleteAllTask] using this

theorem completeAllMap_ids (clock : Clock) (k : Nat) (l : List Task) :
    (completeAllMap clock k l).map (fun t => t.ID) = l.map (fun t => t.ID) := by
  induction l generalizing k with
  | nil => rfl
  | cons t l ih =>
    simp only [completeAllMap]
    split
    · simp [ih]
    · simp [ih]

theorem pushMap_ids (cal : Calendar) (clock : Clock) (k : Nat) (l : List Task) :
    (pushMap cal clock k l).map (fun t => t.ID) = l.map (fun t => t.ID) := by
  induction l generalizing k with
  | nil => rfl
  | cons t l ih =>
    simp only [pushMap]
    split
    · split
      · simp [ih]
      · simp [ih]
    · simp [ih]

theorem isZero_zero : Time.zero.IsZero := rfl

theorem completeAllMap_inv (clock : Clock) (hclock : ∀ k, ¬ (clock k).IsZero) (k : Nat) (l : List Task)
    (h : ∀ t ∈ l, completedAtSet t) : ∀ t ∈ completeAllMap clock k l, completedAtSet t := by
  induction l generalizing k with
  | nil => simp [completeAllMap]
  | cons a l ih =>
    have hl : ∀ t ∈ l, completedAtSet t := fun t ht => h t (by simp [ht])
    simp only [completeAllMap]
    split
    · intro t ht
      rcases List.mem_cons.mp ht with rfl | ht
      · simp [completedAtSet, hclock k]
      · exact ih (k + 1) hl t ht
    · intro t ht
      rcases List.mem_cons.mp ht with rfl | ht
      · exact h _ (by simp)
      · exact ih k hl t ht

theorem pushMap_inv (cal : Calendar) (clock : Clock) (k : Nat) (l : List Task)
    (h : ∀ t ∈ l, completedAtSet t) : ∀ t ∈ pushMap cal clock k l, completedAtSet t := by
  induction l generalizing k with
  | nil => simp [pushMap]
  | cons a l ih =>
    have hl : ∀ t ∈ l, completedAtSet t := fun t ht => h t (by simp [ht])
    have ha : completedAtSet a := h a (by simp)
    simp only [pushMap]
    split
    · intro t ht
      rcases List.mem_cons.mp ht with rfl | ht
      · split
        · simpa [completedAtSet] using ha
        · exact ha
      · exact ih (k + 1) hl t ht
    · intro t ht
      rcases List.mem_cons.mp ht with rfl | ht
      · exact ha
      · exact ih k hl t ht

theorem refreshOld_ID (cal : Calendar) (now : Time) (t : Task) : (refreshOld cal now t).ID = t.ID := by
  unfold refreshOld
  split
  · rfl
  · split <;> rfl

theorem refreshOld_not_rollsOver (cal : Calendar) (now : Time) (t : Task) : ¬ rollsOver now (refreshOld cal now t) := by
  unfold refreshOld
  split
  · simp [rollsOver]
  · rename_i h1
    split
    · rename_i h2
      simp [rollsOver, h2.2.1]
    · exact h1

theorem refreshOld_of_not_rollsOver_completed (cal : Calendar) (now : Time) (t : Task) (h : ¬ rollsOver now t) :
    (refreshOld cal now t).Completed = t.Completed := by
  unfold rollsOver at h
  unfold refreshOld
  rw [if_neg h]
  split <;> rfl

theorem refreshOld_inv (cal : Calendar) (now : Time) (hnow : ¬ now.IsZero) (t : Task) (h : completedAtSet t) :
    completedAtSet (refreshOld cal now t) := by
  unfold refreshOld
  split
  · simp [completedAtSet, hnow]
  · split
    · simpa [completedAtSet] using h
    · exact h

theorem refreshNew_mem (cal : Calendar) (clock : Clock) (today : Time) (m : Int) (k : Nat) (l : List Task) :
    ∀ t ∈ refreshNew cal clock today m k l,
      t.DueDate = cal.addDay today ∧ t.Completed = false ∧ t.CompletedAt = Time.zero ∧ t.IsDaily = true := by
  induction l generalizing m k with
  | nil => simp [refreshNew]
  | cons a l ih =>
    simp only [refreshNew]
    split
    · intro t ht
      rcases List.mem_cons.mp ht with rfl | ht
      · simp
      · exact ih _ _ t ht
    · exact ih _ _

theorem refreshNew_nil (cal : Calendar) (clock : Clock) (today : Time) (m : Int) (k : Nat) (l : List Task)
    (h : ∀ t ∈ l, ¬ rollsOver today t) : refreshNew cal clock today m k l = [] := by
  induction l generalizing m k with
  | nil => rfl
  | cons a l ih =>
    simp only [refreshNew, if_neg (h a (by simp))]
    exact ih _ _ (fun t ht => h t (by simp [ht]))

theorem refreshNew_length (cal : Calendar) (clock : Clock) (today : Time) (m : Int) (k : Nat) (l : List Task) :
    (refreshNew cal clock today m k l).length =
      (l.filter (fun t => decide (rollsOver today t))).length := by
  induction l generalizing m k with
  | nil => rfl
  | cons a l ih =>
    simp only [refreshNew, List.filter_cons]
    by_cases h : rollsOver today a
    · simp [h, ih]
    · simp [h, ih]

/-- No task of a refreshed store is in the rollover case. -/
theorem refreshed_not_rollsOver (cal : Calendar) (clock : Clock) (tl : TodoList) :
    ∀ t ∈ (RefreshDailyTasks cal clock tl).Tasks, ¬ rollsOver (clock 0) t := by
  intro t ht
  rw [refreshDailyTasks_eq] at ht
  rcases List.mem_append.mp ht with h | h
  · obtain ⟨u, -, rfl⟩ := List.mem_map.mp h
    exact refreshOld_not_rollsOver cal _ _
  · obtain ⟨hdue, -⟩ := refreshNew_mem cal _ _ _ _ _ t h
    unfold rollsOver
    rintro ⟨-, -, h3⟩
    rw [hdue] at h3
    exact cal.not_before _ h3

theorem completeTask_cases (clock : Clock) (tl : TodoList) (id : Int) :
    CompleteTask clock tl id = (tl, some "task not found or already completed") ∨
      ∃ pre t post, tl.Tasks = pre ++ t :: post ∧ t.ID = id ∧ t.Completed = false ∧
        CompleteTask clock tl id =
          ({ Tasks := pre ++ { t with Completed := true, CompletedAt := clock 0 } :: post },
            none) := by
  rcases first_split (fun u => u.ID = id ∧ u.Completed = false) tl.Tasks with
    h | ⟨pre, t, post, hl, hpre, ht⟩
  · exact Or.inl (completeLoop_none clock tl id 0 tl.Tasks h)
  · have e := completeLoop_found clock tl id [] pre t post (by simpa using hl) hpre ht
    simp only [List.length_nil, List.nil_append] at e
    refine Or.inr ⟨pre, t, post, hl, ht.1, ht.2, ?_⟩
    unfold CompleteTask
    rw [hl, e]

theorem removeDailyTask_cases (tl : TodoList) (id : Int) :
    RemoveDailyTask tl id = (tl, some "daily task not found") ∨
      ∃ pre t post, tl.Tasks = pre ++ t :: post ∧
        RemoveDailyTask tl id = ({ Tasks := pre ++ post }, none) := by
  rcases first_split (fun u => u.ID = id ∧ u.IsDaily = true) tl.Tasks with
    h | ⟨pre, t, post, hl, hpre, ht⟩
  · exact Or.inl (removeDailyLoop_none tl id 0 tl.Tasks h)
  · have e := removeDailyLoop_found tl id [] pre t post (by simpa using hl) hpre ht
    simp only [List.length_nil, List.nil_append] at e
    refine Or.inr ⟨pre, t, post, hl, ?_⟩
    unfold RemoveDailyTask
    rw [hl, e]

/-- Every operation keeps the data-model invariant of the tasks. -/
theorem apply_inv (cal : Calendar) (op : Op) (tl : TodoList) (hclock : op.clockNonzero)
    (h : ∀ t ∈ tl.Tasks, completedAtSet t) : ∀ t ∈ (op.apply cal tl).Tasks, completedAtSet t := by
  cases op with
  | addTask clock description dueDate isDaily =>
    intro t ht
    simp only [Op.apply, AddTask, List.mem_append, List.mem_singleton] at ht
    rcases ht with ht | rfl
    · exact h t ht
    · simp [completedAtSet, isZero_zero]
  | addDailyTask clock description =>
    intro t ht
    simp only [Op.apply, AddDailyTask, AddTask, List.mem_append, List.mem_singleton] at ht
    rcases ht with ht | rfl
    · exact h t ht
    · simp [completedAtSet, isZero_zero]
  | removeDailyTask id =>
    intro t ht
    simp only [Op.apply] at ht
    rcases removeDailyTask_cases tl id with e | ⟨pre, u, post, hl, e⟩
    · rw [e] at ht
      exact h t ht
    · rw [e] at ht
      refine h t ?_
      rw [hl]
      simp only [List.mem_append] at ht
      rcases ht with ht | ht
      · simp [ht]
      · simp [ht]
  | completeTask clock id =>
    intro t ht
    simp only [Op.apply] at ht
    rcases completeTask_cases clock tl id with e | ⟨pre, u, post, hl, -, -, e⟩
    · rw [e] at ht
      exact h t ht
    · rw [e] at ht
      simp only [List.mem_append, List.mem_cons] at ht
      rcases ht with ht | rfl | ht
      · exact h t (by simp [hl, ht])
      · have := hclock 0
        simp [completedAtSet, this]
      · exact h t (by simp [hl, ht])
  | completeAllTask ok clock =>
    cases ok with
    | false => simpa [Op.apply, CompleteAllTask] using h
    | true =>
      intro t ht
      simp only [Op.apply] at ht
      rw [completeAllTask_eq] at ht
      exact completeAllMap_inv clock hclock 0 tl.Tasks h t ht
  | refreshDailyTasks clock =>
    intro t ht
    simp only [Op.apply] at ht
    rw [refreshDailyTasks_eq] at ht
    rcases List.mem_append.mp ht with ht | ht
    · obtain ⟨u, hu, rfl⟩ := List.mem_map.mp ht
      exact refreshOld_inv cal _ (hclock 0) u (h u hu)
    · obtain ⟨-, h2, h3, -⟩ := refreshNew_mem cal _ _ _ _ _ t ht
      simp [completedAtSet, h2, h3, isZero_zero]
  | pushIncompleteTasks clock =>
    intro t ht
    simp only [Op.apply] at ht
    rw [pushIncompleteTasks_eq] at ht
    exact pushMap_inv cal clock 0 tl.Tasks h t ht

theorem idRoom_maxIDFrom (tl : TodoList) (k : Nat) (h : idRoom tl k) :
    maxIDFrom 0 tl.Tasks + k ≤ maxInt := by
  have := maxIDFrom_le 0 (maxInt - k) tl.Tasks (by have := h.1; omega)
    (fun t ht => by have := h.2 t ht; omega)
  omega

/-- Without overflow the appended tasks get IDs above the running maximum, all
different. -/
theorem refreshNew_ids (cal : Calendar) (clock : Clock) (today : Time) (m : Int) (k : Nat) (l : List Task)
    (h0 : 0 ≤ m)
    (hb : m + ((l.filter (fun t => decide (rollsOver today t))).length : Int) ≤ maxInt) :
    (∀ x ∈ (refreshNew cal clock today m k l).map (fun t => t.ID), m < x) ∧
      ((refreshNew cal clock today m k l).map (fun t => t.ID)).Nodup := by
  induction l generalizing m k with
  | nil => simp [refreshNew]
  | cons a l ih =>
    simp only [refreshNew]
    by_cases h : rollsOver today a
    · simp only [if_pos h]
      simp only [List.filter_cons, h, decide_True, if_true, List.length_cons] at hb
      push_cast at hb
      have hw : wrapInt (m + 1) = m + 1 := by
        unfold maxInt at hb
        exact wrapInt_eq _ (by omega) (by omega)
      rw [hw]
      have hgt : m + 1 > m := by omega
      simp only [if_pos hgt]
      obtain ⟨ih1, ih2⟩ := ih (m + 1) (k + 1) (by omega) (by omega)
      constructor
      · intro x hx
        simp only [List.map_cons, List.mem_cons] at hx
        rcases hx with rfl | hx
        · omega
        · have := ih1 x hx
          omega
      · simp only [List.map_cons]
        refine List.nodup_cons.mpr ⟨?_, ih2⟩
        intro hmem
        have := ih1 _ hmem
        omega
    · simp only [if_neg h]
      simp only [List.filter_cons, h, decide_False] at hb
      exact ih m k h0 (by simpa using hb)

/-- The tasks an operation creates: none, one task with the next ID, or the
tasks the loop of `RefreshDailyTasks` appends. -/
theorem created_cases (cal : Calendar) (op : Op) (tl : TodoList) :
    op.created cal tl = [] ∨ (∃ t, op.created cal tl = [t] ∧ t.ID = getNextID tl) ∨
      ∃ clock, op.created cal tl = refreshNew cal clock (clock 0) (maxIDFrom 0 tl.Tasks) 1 tl.Tasks := by
  cases op with
  | addTask clock description dueDate isDaily =>
    right; left
    refine ⟨{ ID := getNextID tl, Description := description, CreatedAt := clock 0,
              DueDate := dueDate, CompletedAt := Time.zero, Completed := false, IsDaily := isDaily },
      ?_, rfl⟩
    simp [Op.created, Op.apply, AddTask]
  | addDailyTask clock description =>
    right; left
    refine ⟨{ ID := getNextID tl, Description := description, CreatedAt := clock 1,
              DueDate := cal.addDay (clock 0), CompletedAt := Time.zero, Completed := false, IsDaily := true },
      ?_, rfl⟩
    simp [Op.created, Op.apply, AddDailyTask, AddTask]
  | removeDailyTask id =>
    left
    simp only [Op.created, Op.apply]
    rcases removeDailyTask_cases tl id with e | ⟨pre, u, post, hl, e⟩
    · simp [e]
    · rw [e, hl]
      apply List.drop_eq_nil_of_le
      simp
  | completeTask clock id =>
    left
    simp only [Op.created, Op.apply]
    rcases completeTask_cases clock tl id with e | ⟨pre, u, post, hl, -, -, e⟩
    · simp [e]
    · rw [e, hl]
      apply List.drop_eq_nil_of_le
      simp
  | completeAllTask ok clock =>
    left
    cases ok with
    | false => simp [Op.created, Op.apply, CompleteAllTask]
    | true =>
      simp only [Op.created, Op.apply]
      rw [completeAllTask_eq]
      apply List.drop_eq_nil_of_le
      have := congrArg List.length (completeAllMap_ids clock 0 tl.Tasks)
      simp only [List.length_map] at this
      omega
  | refreshDailyTasks clock =>
    right; right
    refine ⟨clock, ?_⟩
    simp only [Op.created, Op.apply]
    rw [refreshDailyTasks_eq]
    exact List.drop_left' (by simp)
  | pushIncompleteTasks clock =>
    left
    simp only [Op.created, Op.apply]
    rw [pushIncompleteTasks_eq]
    apply List.drop_eq_nil_of_le
    have := congrArg List.length (pushMap_ids cal clock 0 tl.Tasks)
    simp only [List.length_map] at this
    omega

/-- With room for the IDs an operation allocates, the IDs of the tasks it
creates exceed every ID of the store and differ from each other. -/
theorem created_ids_fresh (cal : Calendar) (op : Op) (tl : TodoList) (hroom : idRoom tl (op.created cal tl).length) :
    (∀ x ∈ (op.created cal tl).map (fun t => t.ID), ∀ t ∈ tl.Tasks, t.ID < x) ∧
      ((op.created cal tl).map (fun t => t.ID)).Nodup := by
  have hmax := idRoom_maxIDFrom tl _ hroom
  have h0 := maxIDFrom_ge_init 0 tl.Tasks
  rcases created_cases cal op tl with e | ⟨u, e, hu⟩ | ⟨clock, e⟩
  · simp [e]
  · rw [e] at hmax ⊢
    simp only [List.length_singleton, Nat.cast_one] at hmax
    rw [getNextID_eq tl (by omega)] at hu
    constructor
    · intro x hx t ht
      simp only [List.map_cons, List.map_nil, List.mem_singleton] at hx
      have := maxIDFrom_ge_mem 0 tl.Tasks t ht
      omega
    · simp
  · rw [e] at hmax ⊢
    rw [refreshNew_length] at hmax
    obtain ⟨h1, h2⟩ := refreshNew_ids cal clock (clock 0) (maxIDFrom 0 tl.Tasks) 1 tl.Tasks h0 hmax
    refine ⟨?_, h2⟩
    intro x hx t ht
    have := h1 x hx
    have := maxIDFrom_ge_mem 0 tl.Tasks t ht
    omega

/-- The IDs after an operation: IDs of the old store that were kept, in order,
followed by the IDs of the created tasks. -/
theorem apply_ids_decomp (cal : Calendar) (op : Op) (tl : TodoList) :
    ∃ kept, List.Sublist kept (ids tl) ∧
      ids (op.apply cal tl) = kept ++ (op.created cal tl).map (fun t => t.ID) := by
  cases op with
  | addTask clock description dueDate isDaily =>
    exact ⟨ids tl, List.Sublist.refl _, by simp [ids, Op.created, Op.apply, AddTask]⟩
  | addDailyTask clock description =>
    exact ⟨ids tl, List.Sublist.refl _,
      by simp [ids, Op.created, Op.apply, AddDailyTask, AddTask]⟩
  | removeDailyTask id =>
    rcases removeDailyTask_cases tl id with e | ⟨pre, u, post, hl, e⟩
    · exact ⟨ids tl, List.Sublist.refl _, by simp [ids, Op.created, Op.apply, e]⟩
    · refine ⟨(pre ++ post).map (fun t => t.ID), ?_, ?_⟩
      · unfold ids
        rw [hl]
        exact List.Sublist.map _
          (List.Sublist.append (List.Sublist.refl pre) (List.sublist_cons_self u post))
      · have hc : (Op.removeDailyTask id).created cal tl = [] := by
          simp only [Op.created, Op.apply]
          rw [e, hl]
          apply List.drop_eq_nil_of_le
          simp
        rw [hc]
        simp [ids, Op.apply, e]
  | completeTask clock id =>
    rcases completeTask_cases clock tl id with e | ⟨pre, u, post, hl, -, -, e⟩
    · exact ⟨ids tl, List.Sublist.refl _, by simp [ids, Op.created, Op.apply, e]⟩
    · refine ⟨ids tl, List.Sublist.refl _, ?_⟩
      have hc : (Op.completeTask clock id).created cal tl = [] := by
        simp only [Op.created, Op.apply]
        rw [e, hl]
        apply List.drop_eq_nil_of_le
        simp
      rw [hc]
      simp [ids, Op.apply, e, hl]
  | completeAllTask ok clock =>
    cases ok with
    | false => exact ⟨ids tl, List.Sublist.refl _, by simp [ids, Op.created, Op.apply, CompleteAllTask]⟩
    | true =>
      refine ⟨ids tl, List.Sublist.refl _, ?_⟩
      have hi := completeAllMap_ids clock 0 tl.Tasks
      have hc : (Op.completeAllTask true clock).created cal tl = [] := by
        simp only [Op.created, Op.apply]
        rw [completeAllTask_eq]
        apply List.drop_eq_nil_of_le
        have := congrArg List.length hi
        simp only [List.length_map] at this
        omega
      rw [hc]
      simp only [ids, Op.apply, List.map_nil, List.append_nil]
      rw [completeAllTask_eq, hi]
  | refreshDailyTasks clock =>
    refine ⟨ids tl, List.Sublist.refl _, ?_⟩
    have hc : (Op.refreshDailyTasks clock).created cal tl =
        refreshNew cal clock (clock 0) (maxIDFrom 0 tl.Tasks) 1 tl.Tasks := by
      simp only [Op.created, Op.apply]
      rw [refreshDailyTasks_eq]
      exact List.drop_left' (by simp)
    rw [hc]
    simp only [ids, Op.apply]
    rw [refreshDailyTasks_eq, List.map_append, List.map_map]
    congr 1
    apply List.map_congr_left
    intro t _
    exact refreshOld_ID cal _ t
  | pushIncompleteTasks clock =>
    refine ⟨ids tl, List.Sublist.refl _, ?_⟩
    have hi := pushMap_ids cal clock 0 tl.Tasks
    have hc : (Op.pushIncompleteTasks clock).created cal tl = [] := by
      simp only [Op.created, Op.apply]
      rw [pushIncompleteTasks_eq]
      apply List.drop_eq_nil_of_le
      have := congrArg List.length hi
      simp only [List.length_map] at this
      omega
    rw [hc]
    simp only [ids, Op.apply, List.map_nil, List.append_nil]
    rw [pushIncompleteTasks_eq, hi]

theorem foldl_max_comm (a b : Int) (l : List Task) :
    l.foldl (fun m u => max m u.ID) (max a b) = max a (l.foldl (fun m u => max m u.ID) b) := by
  induction l generalizing b with
  | nil => rfl
  | cons t l ih =>
    simp only [List.foldl_cons]
    rw [max_assoc]
    exact ih _

theorem maxIDFrom_eq_foldl (a : Int) (l : List Task) :
    maxIDFrom a l = l.foldl (fun m u => max m u.ID) a := by
  induction l generalizing a with
  | nil => rfl
  | cons t l ih =>
    simp only [maxIDFrom, List.foldl_cons]
    split
    · rw [ih, max_eq_right (by omega)]
    · rw [ih, max_eq_left (by omega)]

/-- The running maximum of `getNextID` is the largest ID, or 0 when no ID is
positive. -/
theorem maxIDFrom_eq_max_largestID (l : List Task) : maxIDFrom 0 l = max 0 (largestID l) := by
  cases l with
  | nil => simp [maxIDFrom, largestID]
  | cons t l =>
    rw [maxIDFrom_eq_foldl]
    simp only [List.foldl_cons, largestID]
    exact foldl_max_comm 0 t.ID l

/-- Without overflow the appended tasks are the rollover tasks, numbered in
store order. -/
theorem refreshNew_eq_enum (cal : Calendar) (clock : Clock) (m0 : Int) (n : Nat) (l : List Task) (h0 : 0 ≤ m0)
    (hb : m0 + n + ((l.filter (fun t => decide (rollsOver (clock 0) t))).length : Int) ≤ maxInt) :
    refreshNew cal clock (clock 0) (m0 + n) (n + 1) l =
      ((l.filter (fun t => decide (rollsOver (clock 0) t))).enumFrom n).map
        (fun jt => rolloverTask cal m0 clock jt.1 jt.2) := by
  induction l generalizing n with
  | nil => simp [refreshNew]
  | cons a l ih =>
    simp only [refreshNew]
    by_cases h : rollsOver (clock 0) a
    · simp only [List.filter_cons, h, decide_True, if_true, List.length_cons] at hb ⊢
      push_cast at hb
      have hw : wrapInt (m0 + n + 1) = m0 + n + 1 := by
        unfold maxInt at hb
        exact wrapInt_eq _ (by omega) (by omega)
      rw [hw]
      have hgt : m0 + (n : Int) + 1 > m0 + n := by omega
      simp only [if_pos hgt, List.enumFrom_cons, List.map_cons]
      have := ih (n + 1) (by push_cast; omega)
      push_cast at this
      rw [← add_assoc] at this
      rw [this]
      congr 1
      simp only [rolloverTask, Task.mk.injEq, and_true, true_and]
      omega
    · simp only [List.filter_cons, h, decide_False, if_false] at hb ⊢
      exact ih n hb
/-! ## The claims -/

/-- C3 (amended): `AddTask` cannot fail (it is a total function) and turns the
tasks `ts` into `ts` followed by exactly one new task with the given
description, due date and daily flag, `Completed = false` and a zero
`CompletedAt`. Its ID is 1 on the empty store; on a store whose IDs are all
below the largest `int` it exceeds every ID of the store, and when these IDs
are moreover positive it is the largest of them plus one. -/
theorem addTask_spec (clock : Clock) (tl : TodoList) (description : String) (dueDate : Time)
    (isDaily : Bool) :
    (AddTask clock tl description dueDate isDaily).Tasks =
        tl.Tasks ++ [{ ID := getNextID tl, Description := description, CreatedAt := clock 0,
                       DueDate := dueDate, CompletedAt := Time.zero, Completed := false,
                       IsDaily := isDaily }] ∧
      (tl.Tasks = [] → getNextID tl = 1) ∧
      ((∀ t ∈ tl.Tasks, t.ID < maxInt) → ∀ t ∈ tl.Tasks, t.ID < getNextID tl) ∧
      ((∀ t ∈ tl.Tasks, 0 < t.ID ∧ t.ID < maxInt) → tl.Tasks ≠ [] →
        ∃ t ∈ tl.Tasks, getNextID tl = t.ID + 1 ∧ ∀ u ∈ tl.Tasks, u.ID ≤ t.ID) := by
  refine ⟨rfl, ?_, ?_, ?_⟩
  · intro h
    simp [getNextID, h, maxIDFrom, wrapInt]
  · intro hb t ht
    have hlt : maxIDFrom 0 tl.Tasks < maxInt := by
      have := maxIDFrom_le 0 (maxInt - 1) tl.Tasks (by unfold maxInt; omega)
        (fun u hu => by have := hb u hu; omega)
      omega
    rw [getNextID_eq tl hlt]
    have := maxIDFrom_ge_mem 0 tl.Tasks t ht
    omega
  · intro hb hne
    have hlt : maxIDFrom 0 tl.Tasks < maxInt := by
      have := maxIDFrom_le 0 (maxInt - 1) tl.Tasks (by unfold maxInt; omega)
        (fun u hu => by have := (hb u hu).2; omega)
      omega
    rw [getNextID_eq tl hlt]
    rcases maxIDFrom_init_or_mem 0 tl.Tasks with h | ⟨t, ht, h⟩
    · exfalso
      cases hl : tl.Tasks with
      | nil => exact hne hl
      | cons u l =>
        have h1 := maxIDFrom_ge_mem 0 tl.Tasks u (by simp [hl])
        have h2 := (hb u (by simp [hl])).1
        omega
    · refine ⟨t, ht, by rw [h], ?_⟩
      intro u hu
      have := maxIDFrom_ge_mem 0 tl.Tasks u hu
      omega


/-- C3 (amended), at the store with tasks 1 and 2: the new ID is 3. -/
theorem addTask_spec_witness :
    getNextID exTwoTasks = 3 ∧
      (AddTask (constClock exNow) exTwoTasks "call home" (utc (11 * day)) false).Tasks =
        exTwoTasks.Tasks ++ [{ ID := 3, Description := "call home", CreatedAt := exNow,
                               DueDate := utc (11 * day), CompletedAt := Time.zero, Completed := false,
                               IsDaily := false }] ∧
      ∃ t ∈ exTwoTasks.Tasks, getNextID exTwoTasks = t.ID + 1 ∧
        ∀ u ∈ exTwoTasks.Tasks, u.ID ≤ t.ID :=
  ⟨by decide, by decide,
    (addTask_spec (constClock exNow) exTwoTasks "call home" (utc (11 * day)) false).2.2.2
      (by decide) (by decide)⟩

/-- C4: `CompleteTask` returns the not-found error exactly when the store has
no task with the given ID and `Completed = false`, and then leaves the store
unchanged; otherwise it returns no error and the store is the old one with the
first task having that ID and `Completed = false` now completed, its
`CompletedAt` being the clock reading, every other task and field unchanged. -/
theorem completeTask_spec (clock : Clock) (tl : TodoList) (id : Int) :
    ((CompleteTask clock tl id).2 = some "task not found or already completed" ↔
        ¬ ∃ t ∈ tl.Tasks, t.ID = id ∧ t.Completed = false) ∧
      ((CompleteTask clock tl id).2 = some "task not found or already completed" →
        (CompleteTask clock tl id).1 = tl) ∧
      ((CompleteTask clock tl id).2 ≠ some "task not found or already completed" →
        (CompleteTask clock tl id).2 = none ∧
        ∃ pre t post, tl.Tasks = pre ++ t :: post ∧
          (∀ u ∈ pre, ¬ (u.ID = id ∧ u.Completed = false)) ∧
          t.ID = id ∧ t.Completed = false ∧
          (CompleteTask clock tl id).1.Tasks =
            pre ++ { t with Completed := true, CompletedAt := clock 0 } :: post) := by
  rcases first_split (fun u => u.ID = id ∧ u.Completed = false) tl.Tasks with
    h | ⟨pre, t, post, hl, hpre, ht⟩
  · have e := completeLoop_none clock tl id 0 tl.Tasks h
    have hno : ¬ ∃ t ∈ tl.Tasks, t.ID = id ∧ t.Completed = false := by
      rintro ⟨t, ht, h2⟩
      exact h t ht h2
    unfold CompleteTask
    rw [e]
    simp [hno]
  · have e := completeLoop_found clock tl id [] pre t post (by simpa using hl) hpre ht
    have hyes : ∃ t ∈ tl.Tasks, t.ID = id ∧ t.Completed = false :=
      ⟨t, by simp [hl], ht⟩
    unfold CompleteTask
    simp only [List.length_nil, List.nil_append] at e
    rw [hl, e]
    refine ⟨by simp [← hl, hyes], by simp, ?_⟩
    intro _
    exact ⟨rfl, pre, t, post, rfl, hpre, ht.1, ht.2, rfl⟩

/-- C5: `RemoveDailyTask` never removes a task that is not daily (the tasks with
`IsDaily = false` are the same, in the same order, before and after); it returns
the not-found error, leaving the store unchanged, exactly when no task has both
the given ID and `IsDaily = true`; otherwise it returns no error and the store
is the old one without the first task having that ID and `IsDaily = true`. -/
theorem removeDailyTask_spec (tl : TodoList) (id : Int) :
    ((RemoveDailyTask tl id).1.Tasks.filter (fun t => !t.IsDaily) =
        tl.Tasks.filter (fun t => !t.IsDaily)) ∧
      ((RemoveDailyTask tl id).2 = some "daily task not found" ↔
        ¬ ∃ t ∈ tl.Tasks, t.ID = id ∧ t.IsDaily = true) ∧
      ((RemoveDailyTask tl id).2 = some "daily task not found" →
        (RemoveDailyTask tl id).1 = tl) ∧
      ((RemoveDailyTask tl id).2 ≠ some "daily task not found" →
        (RemoveDailyTask tl id).2 = none ∧
        ∃ pre t post, tl.Tasks = pre ++ t :: post ∧
          (∀ u ∈ pre, ¬ (u.ID = id ∧ u.IsDaily = true)) ∧
          t.ID = id ∧ t.IsDaily = true ∧
          (RemoveDailyTask tl id).1.Tasks = pre ++ post) := by
  rcases first_split (fun u => u.ID = id ∧ u.IsDaily = true) tl.Tasks with
    h | ⟨pre, t, post, hl, hpre, ht⟩
  · have e := removeDailyLoop_none tl id 0 tl.Tasks h
    have hno : ¬ ∃ t ∈ tl.Tasks, t.ID = id ∧ t.IsDaily = true := by
      rintro ⟨t, ht, h2⟩
      exact h t ht h2
    unfold RemoveDailyTask
    rw [e]
    simp [hno]
  · have e := removeDailyLoop_found tl id [] pre t post (by simpa using hl) hpre ht
    have hyes : ∃ t ∈ tl.Tasks, t.ID = id ∧ t.IsDaily = true :=
      ⟨t, by simp [hl], ht⟩
    unfold RemoveDailyTask
    simp only [List.length_nil, List.nil_append] at e
    rw [hl, e]
    refine ⟨by simp [List.filter_cons, ht.2], by simp [← hl, hyes], by simp, ?_⟩
    intro _
    exact ⟨rfl, pre, t, post, rfl, hpre, ht.1, ht.2, rfl⟩

/-- C8: `PushIncompleteTasks` at time `now` keeps the tasks and their order and
changes only due dates: exactly the tasks that are not daily, incomplete and due
before `now` get their due date advanced by one calendar day from their own old
due date (`AddDate(0, 0, 1)` of it, not of `now`), all else is unchanged; with
any clock readings a task is either unchanged or a non-daily incomplete task
moved by one calendar day; and a second call at the same `now` moves once more
exactly the tasks that were more than one day overdue, those whose moved due
date is still before `now`. -/
theorem pushIncompleteTasks_spec (cal : Calendar) (now : Time) (clock : Clock) (tl : TodoList) :
    (PushIncompleteTasks cal (constClock now) tl).Tasks =
        tl.Tasks.map (fun t =>
          if t.IsDaily = false ∧ t.Completed = false ∧ t.DueDate.Before now then
            { t with DueDate := cal.addDay t.DueDate }
          else t) ∧
      List.Forall₂ (fun t u => u = t ∨
          (t.IsDaily = false ∧ t.Completed = false ∧ u = { t with DueDate := cal.addDay t.DueDate }))
        tl.Tasks (PushIncompleteTasks cal clock tl).Tasks ∧
      (PushIncompleteTasks cal (constClock now) (PushIncompleteTasks cal (constClock now) tl)).Tasks =
        tl.Tasks.map (fun t =>
          if t.IsDaily = false ∧ t.Completed = false ∧ t.DueDate.Before now then
            (if (cal.addDay t.DueDate).Before now then { t with DueDate := cal.addDay (cal.addDay t.DueDate) }
              else { t with DueDate := cal.addDay t.DueDate })
          else t) := by
  have e1 : ∀ s : TodoList, (PushIncompleteTasks cal (constClock now) s).Tasks =
      s.Tasks.map (pushStep cal now) := by
    intro s
    rw [pushIncompleteTasks_eq, pushMap_const]
  refine ⟨?_, ?_, ?_⟩
  · rw [e1]
    rfl
  · rw [pushIncompleteTasks_eq]
    exact pushMap_forall₂ cal clock 0 tl.Tasks
  · rw [e1, e1, List.map_map]
    apply List.map_congr_left
    intro t _
    simp only [Function.comp, pushStep, pushable]
    by_cases h : t.IsDaily = false ∧ t.Completed = false ∧ t.DueDate.Before now
    · simp only [if_pos h]
      by_cases h2 : (cal.addDay t.DueDate).Before now
      · simp [h2, h.1, h.2.1]
      · simp [h2]
    · simp [h]

/-- C8, at a store in location 1 across the 23 hour day of `dstCalendar`: the
task due one hour into that day moves by 23 hours and, being then still before
now, moves by 24 hours more in a second call; the task due two days before
moves by 24 hours in each call. -/
theorem pushIncompleteTasks_spec_witness :
    (PushIncompleteTasks dstCalendar (constClock exAfterDst) exDstTasks).Tasks =
        [{ ID := 1, Description := "buy milk", CreatedAt := local1 (8 * day),
           DueDate := local1 (10 * day), CompletedAt := Time.zero, Completed := false,
           IsDaily := false },
         { ID := 2, Description := "call home", CreatedAt := local1 (6 * day),
           DueDate := local1 (8 * day), CompletedAt := Time.zero, Completed := false,
           IsDaily := false }] ∧
      (PushIncompleteTasks dstCalendar (constClock exAfterDst)
          (PushIncompleteTasks dstCalendar (constClock exAfterDst) exDstTasks)).Tasks =
        [{ ID := 1, Description := "buy milk", CreatedAt := local1 (8 * day),
           DueDate := local1 (11 * day), CompletedAt := Time.zero, Completed := false,
           IsDaily := false },
         { ID := 2, Description := "call home", CreatedAt := local1 (6 * day),
           DueDate := local1 (9 * day), CompletedAt := Time.zero, Completed := false,
           IsDaily := false }] :=
  ⟨(pushIncompleteTasks_spec dstCalendar exAfterDst (constClock exAfterDst) exDstTasks).1.trans
      (by decide),
    (pushIncompleteTasks_spec dstCalendar exAfterDst (constClock exAfterDst) exDstTasks).2.2.trans
      (by decide)⟩

/-- C9: the invariant that `CompletedAt` is set exactly when `Completed` is true
is preserved by every store operation whose clock readings are non-zero times
(`AddTask`, `AddDailyTask`, `RemoveDailyTask`, `CompleteTask`, `CompleteAllTask`
with either answer, `RefreshDailyTasks`, `PushIncompleteTasks`), and it holds in
every store built from the empty store by such operations. -/
theorem completedAtSet_preserved (cal : Calendar) (tl : TodoList) (op : Op) (ops : List Op)
    (h : ∀ t ∈ tl.Tasks, completedAtSet t) (hop : op.clockNonzero)
    (hops : ∀ o ∈ ops, o.clockNonzero) :
    (∀ t ∈ (op.apply cal tl).Tasks, completedAtSet t) ∧
      (∀ t ∈ emptyStore.Tasks, completedAtSet t) ∧
      (∀ t ∈ (run cal emptyStore ops).Tasks, completedAtSet t) := by
  refine ⟨apply_inv cal op tl hop h, by simp [emptyStore], ?_⟩
  have key : ∀ (l : List Op) (s : TodoList), (∀ o ∈ l, o.clockNonzero) →
      (∀ t ∈ s.Tasks, completedAtSet t) → ∀ t ∈ (run cal s l).Tasks, completedAtSet t := by
    intro l
    induction l with
    | nil => intro s _ hs; simpa [run] using hs
    | cons o l ih =>
      intro s hl hs
      simp only [run]
      exact ih (o.apply cal s) (fun o2 ho2 => hl o2 (by simp [ho2]))
        (apply_inv cal o s (hl o (by simp)) hs)
  exact key ops emptyStore hops (by simp [emptyStore])

/-- C9, at a concrete store, operation and sequence of operations. -/
theorem completedAtSet_preserved_witness :
    (∀ t ∈ exMissedDaily.Tasks, completedAtSet t) ∧
      (∀ t ∈ ((Op.refreshDailyTasks (constClock exNow)).apply utcCalendar exMissedDaily).Tasks,
        completedAtSet t) ∧
      (∀ t ∈ (run utcCalendar emptyStore [Op.addDailyTask (constClock exNow) "stretch",
          Op.completeTask (constClock exNow) 1]).Tasks, completedAtSet t) :=
  have h : ∀ t ∈ exMissedDaily.Tasks, completedAtSet t := by
    simp [exMissedDaily, completedAtSet, isZero_zero]
  have hc : ∀ k, ¬ (constClock exNow k).IsZero := by
    intro k
    show ¬ exNow.IsZero
    decide
  have r := completedAtSet_preserved utcCalendar exMissedDaily (Op.refreshDailyTasks (constClock exNow))
    [Op.addDailyTask (constClock exNow) "stretch", Op.completeTask (constClock exNow) 1]
    h hc (by
      intro o ho
      simp only [List.mem_cons, List.mem_singleton, List.not_mem_nil, or_false] at ho
      rcases ho with rfl | rfl
      · exact hc
      · exact hc)
  ⟨h, r.1, r.2.2⟩

/-- C10 as stated fails: after `RefreshDailyTasks` at `exNow` the store
`exMissedDaily` holds a daily task (the missed one, now completed) whose due
date is still before `exNow`. -/
theorem refresh_due_counterexample :
    ¬ ∀ t ∈ (RefreshDailyTasks utcCalendar (constClock exNow) exMissedDaily).Tasks,
        t.IsDaily = true → exNow.instant ≤ t.DueDate.instant := by
  decide

/-- C10 (amended): after `RefreshDailyTasks` at time `now` every daily task of
the store has `dueDate ≥ now`, except the tasks this call marked completed as
missed, which keep their old due date before `now`; in particular every daily
task that is incomplete has `dueDate ≥ now`. -/
theorem refresh_daily_due (cal : Calendar) (clock : Clock) (tl : TodoList) :
    (∀ t ∈ (RefreshDailyTasks cal clock tl).Tasks, t.IsDaily = true →
        (clock 0).instant ≤ t.DueDate.instant ∨
          ∃ t0 ∈ tl.Tasks, rollsOver (clock 0) t0 ∧
            t = { t0 with Completed := true, CompletedAt := clock 0 }) ∧
      (∀ t ∈ (RefreshDailyTasks cal clock tl).Tasks, t.IsDaily = true → t.Completed = false →
        (clock 0).instant ≤ t.DueDate.instant) := by
  have first : ∀ t ∈ (RefreshDailyTasks cal clock tl).Tasks, t.IsDaily = true →
      (clock 0).instant ≤ t.DueDate.instant ∨
        ∃ t0 ∈ tl.Tasks, rollsOver (clock 0) t0 ∧
          t = { t0 with Completed := true, CompletedAt := clock 0 } := by
    intro t ht hdaily
    rw [refreshDailyTasks_eq] at ht
    rcases List.mem_append.mp ht with ht | ht
    · obtain ⟨u, hu, rfl⟩ := List.mem_map.mp ht
      unfold refreshOld at hdaily ⊢
      by_cases h1 : u.IsDaily = true ∧ u.Completed = false ∧ u.DueDate.Before (clock 0)
      · right
        exact ⟨u, hu, h1, by rw [if_pos h1]⟩
      · left
        rw [if_neg h1] at hdaily ⊢
        by_cases h2 : u.IsDaily = true ∧ u.Completed = true ∧ u.DueDate.Before (clock 0)
        · rw [if_pos h2]
          exact not_lt.mp (cal.not_before (clock 0))
        · rw [if_neg h2] at hdaily ⊢
          by_contra hlt
          have hlt2 : u.DueDate.Before (clock 0) := not_le.mp hlt
          cases hc : u.Completed with
          | true => exact h2 ⟨hdaily, hc, hlt2⟩
          | false => exact h1 ⟨hdaily, hc, hlt2⟩
    · left
      obtain ⟨hdue, -⟩ := refreshNew_mem cal _ _ _ _ _ t ht
      rw [hdue]
      exact not_lt.mp (cal.not_before (clock 0))
  refine ⟨first, ?_⟩
  intro t ht hdaily hinc
  rcases first t ht hdaily with h | ⟨t0, -, -, rfl⟩
  · exact h
  · simp at hinc

/-- C7: a second `RefreshDailyTasks` with the same `now` (the first clock
reading) appends no task and completes no task: its result has the same length,
the same IDs in the same order and the same `Completed` flags as the result of
the first call. -/
theorem refresh_twice (cal : Calendar) (clock1 clock2 : Clock) (tl : TodoList) (hnow : clock2 0 = clock1 0) :
    (RefreshDailyTasks cal clock2 (RefreshDailyTasks cal clock1 tl)).Tasks.length =
        (RefreshDailyTasks cal clock1 tl).Tasks.length ∧
      ids (RefreshDailyTasks cal clock2 (RefreshDailyTasks cal clock1 tl)) =
        ids (RefreshDailyTasks cal clock1 tl) ∧
      (RefreshDailyTasks cal clock2 (RefreshDailyTasks cal clock1 tl)).Tasks.map (fun t => t.Completed) =
        (RefreshDailyTasks cal clock1 tl).Tasks.map (fun t => t.Completed) := by
  have hno : ∀ t ∈ (RefreshDailyTasks cal clock1 tl).Tasks, ¬ rollsOver (clock2 0) t := by
    rw [hnow]
    exact refreshed_not_rollsOver cal clock1 tl
  have e : (RefreshDailyTasks cal clock2 (RefreshDailyTasks cal clock1 tl)).Tasks =
      (RefreshDailyTasks cal clock1 tl).Tasks.map (refreshOld cal (clock2 0)) := by
    rw [refreshDailyTasks_eq cal clock2, refreshNew_nil cal _ _ _ _ _ hno, List.append_nil]
  refine ⟨?_, ?_, ?_⟩
  · rw [e, List.length_map]
  · unfold ids
    rw [e, List.map_map]
    apply List.map_congr_left
    intro t _
    exact refreshOld_ID cal _ t
  · rw [e, List.map_map]
    apply List.map_congr_left
    intro t ht
    exact refreshOld_of_not_rollsOver_completed cal _ t (hno t ht)

/-- C7, at a store with a missed daily task and two clocks that agree on the
first reading only. -/
theorem refresh_twice_witness :
    (fun k => utc (10 * day + k)) 0 = constClock exNow 0 ∧
      (RefreshDailyTasks utcCalendar (fun k => utc (10 * day + k))
          (RefreshDailyTasks utcCalendar (constClock exNow) exMissedDaily)).Tasks.length =
        (RefreshDailyTasks utcCalendar (constClock exNow) exMissedDaily).Tasks.length ∧
      ids (RefreshDailyTasks utcCalendar (fun k => utc (10 * day + k))
          (RefreshDailyTasks utcCalendar (constClock exNow) exMissedDaily)) =
        ids (RefreshDailyTasks utcCalendar (constClock exNow) exMissedDaily) ∧
      (RefreshDailyTasks utcCalendar (fun k => utc (10 * day + k))
          (RefreshDailyTasks utcCalendar (constClock exNow) exMissedDaily)).Tasks.map (fun t => t.Completed) =
        (RefreshDailyTasks utcCalendar (constClock exNow) exMissedDaily).Tasks.map (fun t => t.Completed) :=
  ⟨by decide,
    refresh_twice utcCalendar (constClock exNow) (fun k => utc (10 * day + k)) exMissedDaily
      (by decide)⟩

/-- C1 as stated fails at the largest `int`: the IDs of `exLargestID` are
positive and pairwise distinct, `RefreshDailyTasks` rolls over both tasks, and
both new tasks get the ID the overflowing `maxID + 1` wraps to. -/
theorem ids_unique_counterexample :
    (ids exLargestID).Nodup ∧ (∀ t ∈ exLargestID.Tasks, 0 < t.ID) ∧
      ids (RefreshDailyTasks utcCalendar (constClock exNow) exLargestID) =
        [9223372036854775807, 1, -9223372036854775808, -9223372036854775808] ∧
      ¬ (ids (RefreshDailyTasks utcCalendar (constClock exNow) exLargestID)).Nodup := by
  decide

/-- C1 (amended): for every store whose task IDs are pairwise distinct and
every single operation (`AddTask`, `AddDailyTask`, `RemoveDailyTask`,
`CompleteTask`, `CompleteAllTask` with either answer, `RefreshDailyTasks` and
`PushIncompleteTasks` with any clock) that has room for the IDs it allocates
(the number of tasks it creates, added to 0 and to any ID of the store, does not
exceed the largest `int`), the resulting store again has pairwise distinct
IDs. -/
theorem ids_nodup_preserved (cal : Calendar) (tl : TodoList) (op : Op) (hnd : (ids tl).Nodup)
    (hroom : idRoom tl (op.created cal tl).length) : (ids (op.apply cal tl)).Nodup := by
  obtain ⟨kept, hsub, e⟩ := apply_ids_decomp cal op tl
  obtain ⟨hgt, hnew⟩ := created_ids_fresh cal op tl hroom
  rw [e]
  refine List.nodup_append.mpr ⟨hnd.sublist hsub, hnew, ?_⟩
  intro x hx hx2
  have hx3 : x ∈ ids tl := hsub.subset hx
  obtain ⟨t, ht, rfl⟩ := List.mem_map.mp hx3
  have := hgt _ hx2 t ht
  omega

/-- C1 (amended), at the store with tasks 1 and 2 and `RefreshDailyTasks`. -/
theorem ids_nodup_preserved_witness :
    (ids exTwoTasks).Nodup ∧
      idRoom exTwoTasks ((Op.refreshDailyTasks (constClock exNow)).created utcCalendar exTwoTasks).length ∧
      (ids ((Op.refreshDailyTasks (constClock exNow)).apply utcCalendar exTwoTasks)).Nodup :=
  ⟨by decide, by decide,
    ids_nodup_preserved utcCalendar exTwoTasks (Op.refreshDailyTasks (constClock exNow)) (by decide)
      (by decide)⟩

/-- C2 as stated fails: adding a daily task (ID 1), removing it and adding
another task gives the new task the ID 1 again. -/
theorem id_reused_counterexample : ¬ neverReused utcCalendar exReuseOps := by
  intro h
  have h1 := h 1 2 (by decide) (Op.addTask (constClock exNow) "buy milk" (utc (11 * day)) false) rfl
    { ID := 1, Description := "stretch", CreatedAt := exNow, DueDate := utc (11 * day),
      CompletedAt := Time.zero, Completed := false, IsDaily := true }
    (by decide)
    { ID := 1, Description := "buy milk", CreatedAt := exNow, DueDate := utc (11 * day),
      CompletedAt := Time.zero, Completed := false, IsDaily := false }
    (by decide)
  exact h1 rfl

/-- C2 (amended): in every store reached from the empty store by a sequence of
operations, an operation that has room for the IDs it allocates gives each task
it creates an ID larger than, hence different from, the ID of every task that is
in the store at that moment, and different IDs to the tasks it creates together;
the ID of a task that `RemoveDailyTask` has removed may be given out again. -/
theorem created_id_fresh (cal : Calendar) (ops : List Op) (op : Op)
    (hroom : idRoom (run cal emptyStore ops) (op.created cal (run cal emptyStore ops)).length) :
    (∀ u ∈ op.created cal (run cal emptyStore ops), ∀ t ∈ (run cal emptyStore ops).Tasks,
        t.ID < u.ID ∧ u.ID ≠ t.ID) ∧
      ((op.created cal (run cal emptyStore ops)).map (fun t => t.ID)).Nodup := by
  obtain ⟨hgt, hnew⟩ := created_ids_fresh cal op (run cal emptyStore ops) hroom
  refine ⟨?_, hnew⟩
  intro u hu t ht
  have := hgt u.ID (List.mem_map.mpr ⟨u, hu, rfl⟩) t ht
  exact ⟨this, by omega⟩

/-- C2 (amended), at the run that adds a daily task and a one-off task, followed
by `RefreshDailyTasks` a day later. -/
theorem created_id_fresh_witness :
    idRoom (run utcCalendar emptyStore [Op.addDailyTask (constClock (utc (8 * day))) "stretch",
        Op.addTask (constClock (utc (8 * day))) "buy milk" (utc (11 * day)) false])
      ((Op.refreshDailyTasks (constClock exNow)).created utcCalendar
        (run utcCalendar emptyStore [Op.addDailyTask (constClock (utc (8 * day))) "stretch",
          Op.addTask (constClock (utc (8 * day))) "buy milk" (utc (11 * day)) false])).length ∧
      (∀ u ∈ (Op.refreshDailyTasks (constClock exNow)).created utcCalendar
          (run utcCalendar emptyStore [Op.addDailyTask (constClock (utc (8 * day))) "stretch",
            Op.addTask (constClock (utc (8 * day))) "buy milk" (utc (11 * day)) false]),
        ∀ t ∈ (run utcCalendar emptyStore [Op.addDailyTask (constClock (utc (8 * day))) "stretch",
            Op.addTask (constClock (utc (8 * day))) "buy milk" (utc (11 * day)) false]).Tasks,
          t.ID < u.ID ∧ u.ID ≠ t.ID) :=
  ⟨by decide,
    (created_id_fresh utcCalendar [Op.addDailyTask (constClock (utc (8 * day))) "stretch",
      Op.addTask (constClock (utc (8 * day))) "buy milk" (utc (11 * day)) false]
      (Op.refreshDailyTasks (constClock exNow)) (by decide)).1⟩

/-- C3 as stated fails at the largest `int`: the IDs of `exLargestID` are
positive, yet the ID `AddTask` gives the new task is the smallest `int`, neither
the largest ID plus one nor greater than the IDs of the store. -/
theorem addTask_counterexample :
    (∀ t ∈ exLargestID.Tasks, 0 < t.ID) ∧
      ids (AddTask (constClock exNow) exLargestID "buy milk" (utc (11 * day)) false) =
        [9223372036854775807, 1, -9223372036854775808] ∧
      getNextID exLargestID ≠ 9223372036854775807 + 1 ∧
      ¬ ∀ t ∈ exLargestID.Tasks, t.ID < getNextID exLargestID := by
  decide

/-- C6 as stated fails on a store without a positive ID, where the rollover
task of `exNegativeID` gets the ID 1 and not the largest ID of the store plus
one, and at the largest `int`, where the two rollover tasks of `exLargestID`
both get the ID the overflowing `maxID + 1` wraps to. -/
theorem refresh_ref_counterexample :
    largestID exNegativeID.Tasks = -5 ∧
      ids (RefreshDailyTasks utcCalendar (constClock exNow) exNegativeID) = [-5, 1] ∧
      (refreshRef utcCalendar (largestID exNegativeID.Tasks) (constClock exNow) exNegativeID.Tasks).map
        (fun t => t.ID) = [-5, -4] ∧
      (RefreshDailyTasks utcCalendar (constClock exNow) exNegativeID).Tasks ≠
        refreshRef utcCalendar (largestID exNegativeID.Tasks) (constClock exNow) exNegativeID.Tasks ∧
      ids (RefreshDailyTasks utcCalendar (constClock exNow) exLargestID) =
        [9223372036854775807, 1, -9223372036854775808, -9223372036854775808] ∧
      (refreshRef utcCalendar (largestID exLargestID.Tasks) (constClock exNow) exLargestID.Tasks).map
        (fun t => t.ID) = [9223372036854775807, 1, 9223372036854775808, 9223372036854775809] ∧
      (RefreshDailyTasks utcCalendar (constClock exNow) exLargestID).Tasks ≠
        refreshRef utcCalendar (largestID exLargestID.Tasks) (constClock exNow) exLargestID.Tasks := by
  decide

/-- C6 (amended): `RefreshDailyTasks` at time `now` (the first clock reading)
equals the reference `refreshRef`: the old tasks in order, a daily incomplete
task due before `now` completed at `now` with its due date kept, a daily
completed task due before `now` due one calendar day after `now`
(`now.AddDate(0, 0, 1)`), every other task unchanged, followed by one new
daily, incomplete task due one calendar day after `now`
for each daily incomplete overdue task in store order, with the IDs `m + 1`,
`m + 2`, and so on, where `m` is the largest ID of the store or 0 when no ID is
positive, provided `m` plus the number of these tasks does not exceed the
largest `int`. So a store of tasks 1 and 2 whose task 2 is daily, incomplete and
overdue ends with task 2 completed and a new daily incomplete task 3 due one
calendar day after `now`. -/
theorem refreshDailyTasks_ref (cal : Calendar) (clock : Clock) (tl : TodoList)
    (hroom : max 0 (largestID tl.Tasks) +
      ((tl.Tasks.filter (fun t => decide (rollsOver (clock 0) t))).length : Int) ≤ maxInt) :
    (RefreshDailyTasks cal clock tl).Tasks = refreshRef cal (max 0 (largestID tl.Tasks)) clock tl.Tasks ∧
      ∀ t1 t2 : Task, tl.Tasks = [t1, t2] → t1.ID = 1 → t2.ID = 2 → rollsOver (clock 0) t2 →
        (RefreshDailyTasks cal clock tl).Tasks[1]? =
            some { t2 with Completed := true, CompletedAt := clock 0 } ∧
          ∃ u, (RefreshDailyTasks cal clock tl).Tasks[2]? = some u ∧ u.ID = 3 ∧ u.IsDaily = true ∧
            u.Completed = false ∧ u.DueDate = cal.addDay (clock 0) := by
  have main : (RefreshDailyTasks cal clock tl).Tasks =
      refreshRef cal (max 0 (largestID tl.Tasks)) clock tl.Tasks := by
    rw [refreshDailyTasks_eq, ← maxIDFrom_eq_max_largestID]
    rw [← maxIDFrom_eq_max_largestID] at hroom
    have h0 := maxIDFrom_ge_init 0 tl.Tasks
    have := refreshNew_eq_enum cal clock (maxIDFrom 0 tl.Tasks) 0 tl.Tasks h0 (by simpa using hroom)
    simp only [Nat.cast_zero, add_zero, zero_add] at this
    rw [this]
    rfl
  refine ⟨main, ?_⟩
  intro t1 t2 hl h1 h2 hr
  rw [main, hl]
  have hr2 := hr
  unfold rollsOver at hr2
  by_cases hr1 : rollsOver (clock 0) t1
  · simp [refreshRef, refreshOld, largestID, List.filter_cons, List.enum, rolloverTask, hr, hr1,
      hr2, h1, h2]
  · simp [refreshRef, refreshOld, largestID, List.filter_cons, List.enum, rolloverTask, hr, hr1,
      hr2, h1, h2]

/-- C6 (amended), at the store with tasks 1 and 2 on the 23 hour day of
`dstCalendar`: task 2 ends completed and a new task 3 is appended, due one
calendar day, here 23 hours, after now. -/
theorem refreshDailyTasks_ref_witness :
    (RefreshDailyTasks dstCalendar (constClock exDstNow) exTwoTasks).Tasks =
      [{ ID := 1, Description := "buy milk", CreatedAt := utc (8 * day), DueDate := utc (11 * day),
         CompletedAt := Time.zero, Completed := false, IsDaily := false },
       { ID := 2, Description := "stretch", CreatedAt := utc (8 * day), DueDate := utc (9 * day),
         CompletedAt := exDstNow, Completed := true, IsDaily := true },
       { ID := 3, Description := "stretch", CreatedAt := exDstNow, DueDate := local1 (10 * day),
         CompletedAt := Time.zero, Completed := false, IsDaily := true }] :=
  (refreshDailyTasks_ref dstCalendar (constClock exDstNow) exTwoTasks (by decide)).1.trans
    (by decide)
end GoTodo
